import Mathlib

/-!
Shallow embedding of the normalization-and-validity core of the
poke-shiritori utility (src/src/App.tsx).

Modelling conventions:
* A JS string is modelled as a `List Char` of Unicode scalar values.  Every
  character handled by the source tables lies in the Basic Multilingual
  Plane, where JS code-unit indexing coincides with code-point indexing,
  so the index-based loops of the source and `for..of` iteration agree.
* `String.prototype.normalize("NFKC")` is modelled as a compatibility
  decomposition (`nfkcDecomp`, covering the full-width ASCII forms
  U+FF01..U+FF5E, the ideographic space U+3000, the whole half-width
  katakana block U+FF61..U+FF9F including the voicing marks U+FF9E/U+FF9F,
  and the spacing voicing marks U+309B/U+309C) followed by canonical
  composition of a kana base with a following combining voicing mark
  U+3099/U+309A (`nfkcCompose`).  This covers the character repertoire of
  the Japanese-name domain; compatibility mappings outside it (circled
  forms, squared words, non-CJK compatibility characters) are left
  unchanged by the model.
* `String.prototype.toLowerCase` is modelled by `toLowerChar` on the ASCII
  and Latin-1 uppercase ranges (A..Z and U+00C0..U+00DE without the
  multiplication sign), the context-free part of Unicode lowercasing;
  cased letters outside these ranges are outside the model.
-/

set_option maxRecDepth 2000

namespace PokeShiritori

/-- Compatibility decompositions applied by the NFKC model beyond the
full-width ASCII block: the half-width katakana block U+FF61..U+FF9F and
the spacing voicing marks U+309B/U+309C. -/
def nfkcMap : List (Char × List Char) :=
  [('｡', ['。']), ('｢', ['「']), ('｣', ['」']), ('､', ['、']), ('･', ['・']),
   ('ｦ', ['ヲ']), ('ｧ', ['ァ']), ('ｨ', ['ィ']), ('ｩ', ['ゥ']), ('ｪ', ['ェ']),
   ('ｫ', ['ォ']), ('ｬ', ['ャ']), ('ｭ', ['ュ']), ('ｮ', ['ョ']), ('ｯ', ['ッ']),
   ('ｰ', ['ー']), ('ｱ', ['ア']), ('ｲ', ['イ']), ('ｳ', ['ウ']), ('ｴ', ['エ']),
   ('ｵ', ['オ']), ('ｶ', ['カ']), ('ｷ', ['キ']), ('ｸ', ['ク']), ('ｹ', ['ケ']),
   ('ｺ', ['コ']), ('ｻ', ['サ']), ('ｼ', ['シ']), ('ｽ', ['ス']), ('ｾ', ['セ']),
   ('ｿ', ['ソ']), ('ﾀ', ['タ']), ('ﾁ', ['チ']), ('ﾂ', ['ツ']), ('ﾃ', ['テ']),
   ('ﾄ', ['ト']), ('ﾅ', ['ナ']), ('ﾆ', ['ニ']), ('ﾇ', ['ヌ']), ('ﾈ', ['ネ']),
   ('ﾉ', ['ノ']), ('ﾊ', ['ハ']), ('ﾋ', ['ヒ']), ('ﾌ', ['フ']), ('ﾍ', ['ヘ']),
   ('ﾎ', ['ホ']), ('ﾏ', ['マ']), ('ﾐ', ['ミ']), ('ﾑ', ['ム']), ('ﾒ', ['メ']),
   ('ﾓ', ['モ']), ('ﾔ', ['ヤ']), ('ﾕ', ['ユ']), ('ﾖ', ['ヨ']), ('ﾗ', ['ラ']),
   ('ﾘ', ['リ']), ('ﾙ', ['ル']), ('ﾚ', ['レ']), ('ﾛ', ['ロ']), ('ﾜ', ['ワ']),
   ('ﾝ', ['ン']), ('ﾞ', ['\u3099']), ('ﾟ', ['\u309A']),
   ('\u309B', [' ', '\u3099']), ('\u309C', [' ', '\u309A'])]

/-- One character of the NFKC compatibility decomposition. -/
def nfkcDecomp (c : Char) : List Char :=
  if 0xFF01 ≤ c.toNat ∧ c.toNat ≤ 0xFF5E then [Char.ofNat (c.toNat - 0xFEE0)]
  else if c.toNat = 0x3000 then [' ']
  else
    match nfkcMap.lookup c with
    | some s => s
    | none => [c]

/-- Canonical compositions of a kana base with the combining voiced sound
mark U+3099. -/
def compMap : List (Char × Char) :=
  [('う', 'ゔ'), ('か', 'が'), ('き', 'ぎ'), ('く', 'ぐ'), ('け', 'げ'),
   ('こ', 'ご'), ('さ', 'ざ'), ('し', 'じ'), ('す', 'ず'), ('せ', 'ぜ'),
   ('そ', 'ぞ'), ('た', 'だ'), ('ち', 'ぢ'), ('つ', 'づ'), ('て', 'で'),
   ('と', 'ど'), ('は', 'ば'), ('ひ', 'び'), ('ふ', 'ぶ'), ('へ', 'べ'),
   ('ほ', 'ぼ'), ('ゝ', 'ゞ'),
   ('ウ', 'ヴ'), ('カ', 'ガ'), ('キ', 'ギ'), ('ク', 'グ'), ('ケ', 'ゲ'),
   ('コ', 'ゴ'), ('サ', 'ザ'), ('シ', 'ジ'), ('ス', 'ズ'), ('セ', 'ゼ'),
   ('ソ', 'ゾ'), ('タ', 'ダ'), ('チ', 'ヂ'), ('ツ', 'ヅ'), ('テ', 'デ'),
   ('ト', 'ド'), ('ハ', 'バ'), ('ヒ', 'ビ'), ('フ', 'ブ'), ('ヘ', 'ベ'),
   ('ホ', 'ボ'), ('ワ', 'ヷ'), ('ヰ', 'ヸ'), ('ヱ', 'ヹ'), ('ヲ', 'ヺ'),
   ('ヽ', 'ヾ')]

/-- Canonical compositions of a kana base with the combining semi-voiced
sound mark U+309A. -/
def compMapH : List (Char × Char) :=
  [('は', 'ぱ'), ('ひ', 'ぴ'), ('ふ', 'ぷ'), ('へ', 'ぺ'), ('ほ', 'ぽ'),
   ('ハ', 'パ'), ('ヒ', 'ピ'), ('フ', 'プ'), ('ヘ', 'ペ'), ('ホ', 'ポ')]

/-- Canonical composition: a kana base followed immediately by a combining
voicing mark U+3099/U+309A is replaced by the precomposed character, as in
the composition phase of NFC/NFKC. -/
def composePair (a b : Char) : Option Char :=
  if b = '\u3099' then compMap.lookup a
  else if b = '\u309A' then compMapH.lookup a
  else none

/-- One step of the canonical-composition recursion. -/
def nfkcCompose : List Char → List Char
  | [] => []
  | a :: rest =>
    match nfkcCompose rest with
    | [] => [a]
    | b :: rest' =>
      match composePair a b with
      | some v => v :: rest'
      | none => a :: b :: rest'

/-- The NFKC model: compatibility decomposition, then canonical
composition of kana voicing marks. -/
def nfkc (l : List Char) : List Char := nfkcCompose (l.flatMap nfkcDecomp)

/-- A character the NFKC decomposition leaves alone. -/
def nfkcStable (c : Char) : Prop := nfkcDecomp c = [c]

instance (c : Char) : Decidable (nfkcStable c) := by
  unfold nfkcStable; infer_instance

/-- The six voicing-mark characters: the combining marks U+3099/U+309A,
their spacing forms U+309B/U+309C, and their half-width forms
U+FF9E/U+FF9F.  These are exactly the characters whose presence can make
the canonical-composition phase of a later NFKC application interact with
the dakuten and small-kana passes. -/
def isVoicingChar (c : Char) : Prop :=
  c.toNat = 0x3099 ∨ c.toNat = 0x309A ∨ c.toNat = 0x309B ∨ c.toNat = 0x309C ∨
    c.toNat = 0xFF9E ∨ c.toNat = 0xFF9F

instance (c : Char) : Decidable (isVoicingChar c) := by
  unfold isVoicingChar; infer_instance

/-- Lists in composed form: no composable kana base is immediately
followed by a combining voicing mark.  The composition phase is the
identity exactly on such lists. -/
def composedForm : List Char → Prop
  | [] => True
  | [_] => True
  | a :: b :: rest => composePair a b = none ∧ composedForm (b :: rest)

/-- Model of `out.split(from).join(to)` for a single-character key `k`: replace every
occurrence of `k` by `rep`, left to right. -/
def replaceChar (k : Char) (rep : List Char) (l : List Char) : List Char :=
  l.flatMap (fun c => if c = k then rep else [c])

/-- Source `normalizeSpecialCases`: the table maps the FULL-WIDTH digit
two U+FF12 to the katakana "ツー" and the FULL-WIDTH letter U+FF3A to
"ゼット"; entries are applied in insertion order. -/
def normalizeSpecialCases (l : List Char) : List Char :=
  if l = [] then []
  else replaceChar 'Ｚ' "ゼット".toList (replaceChar '２' "ツー".toList l)

/-- Source `normalizeEnding`: NFKC, then drop the long-vowel mark U+30FC
while it is the last remaining character (the index loop walking from the
end is the drop-while on the reversed list). -/
def normalizeEnding (l : List Char) : List Char :=
  if l = [] then []
  else (((nfkc l).reverse.dropWhile (fun c => c = 'ー')).reverse)

/-- Hiragana range handled by the source: U+3041..U+3096. -/
def isHira (c : Char) : Prop := 0x3041 ≤ c.toNat ∧ c.toNat ≤ 0x3096

instance (c : Char) : Decidable (isHira c) := by
  unfold isHira; infer_instance

/-- Hiragana to katakana by the fixed +0x60 code-point offset. -/
def shiftChar (c : Char) : Char :=
  if 0x3041 ≤ c.toNat ∧ c.toNat ≤ 0x3096 then Char.ofNat (c.toNat + 0x60)
  else c

/-- Model of `toLowerCase` on the context-free ASCII and Latin-1 uppercase
ranges: A..Z and U+00C0..U+00DE without the multiplication sign U+00D7,
each lowered by +0x20. -/
def toLowerChar (c : Char) : Char :=
  if 0x41 ≤ c.toNat ∧ c.toNat ≤ 0x5A then Char.ofNat (c.toNat + 0x20)
  else if 0xC0 ≤ c.toNat ∧ c.toNat ≤ 0xDE ∧ c.toNat ≠ 0xD7 then
    Char.ofNat (c.toNat + 0x20)
  else c

/-- Source `normalizeKana`: NFKC, hiragana→katakana shift, then lowercase. -/
def normalizeKana (l : List Char) : List Char :=
  if l = [] then []
  else ((nfkc l).map shiftChar).map toLowerChar

/-- The dakuten/handakuten table of `normalizeDakuten`. -/
def dakutenMap : List (Char × Char) :=
  [('ガ', 'カ'), ('ギ', 'キ'), ('グ', 'ク'), ('ゲ', 'ケ'), ('ゴ', 'コ'),
   ('ザ', 'サ'), ('ジ', 'シ'), ('ズ', 'ス'), ('ゼ', 'セ'), ('ゾ', 'ソ'),
   ('ダ', 'タ'), ('ヂ', 'チ'), ('ヅ', 'ツ'), ('デ', 'テ'), ('ド', 'ト'),
   ('バ', 'ハ'), ('ビ', 'ヒ'), ('ブ', 'フ'), ('ベ', 'ヘ'), ('ボ', 'ホ'),
   ('パ', 'ハ'), ('ピ', 'ヒ'), ('プ', 'フ'), ('ペ', 'ヘ'), ('ポ', 'ホ')]

/-- Source expression `map[ch] || ch`: table lookup defaulting to the
character itself. -/
def dRepl (c : Char) : Char := (dakutenMap.lookup c).getD c

/-- Apply `f` to the last element of a list, if any. -/
def mapLast (f : Char → Char) : List Char → List Char
  | [] => []
  | [c] => [f c]
  | c :: c' :: rest => c :: mapLast f (c' :: rest)

/-- Source `normalizeDakuten`: the index loop applies the table exactly at
index 0 and index `length - 1` (a singleton is hit once, via index 0), and
leaves interior characters unchanged. -/
def normalizeDakuten : List Char → List Char
  | [] => []
  | c :: rest => dRepl c :: mapLast dRepl rest

/-- Source `isSmallKana`: membership in the two literal strings. -/
def isSmallKana (c : Char) : Bool :=
  "ぁぃぅぇぉっゃゅょゎ".toList.contains c || "ァィゥェォッャュョヮヵヶ".toList.contains c

/-- The small-kana table of `normalizeSmallKana`. -/
def smallMap : List (Char × Char) :=
  [('ぁ', 'あ'), ('ぃ', 'い'), ('ぅ', 'う'), ('ぇ', 'え'), ('ぉ', 'お'),
   ('ゃ', 'や'), ('ゅ', 'ゆ'), ('ょ', 'よ'), ('ゎ', 'わ'),
   ('っ', 'つ'),
   ('ゕ', 'か'), ('ゖ', 'け'),
   ('ァ', 'ア'), ('ィ', 'イ'), ('ゥ', 'ウ'), ('ェ', 'エ'), ('ォ', 'オ'),
   ('ャ', 'ヤ'), ('ュ', 'ユ'), ('ョ', 'ヨ'), ('ヮ', 'ワ'),
   ('ッ', 'ツ'),
   ('ヵ', 'カ'), ('ヶ', 'ケ')]

/-- Source expression `(isSmallKana(ch) && map[ch]) ? map[ch] : ch` for
one character. -/
def smallStep (c : Char) : Char :=
  match smallMap.lookup c with
  | some v => if isSmallKana c then v else c
  | none => c

/-- Source `normalizeSmallKana`: NFKC, then the character-wise expansion. -/
def normalizeSmallKana (l : List Char) : List Char :=
  if l = [] then []
  else (nfkc l).map smallStep

/-- Source `normalize`: the five-pass pipeline. -/
def normalize (l : List Char) : List Char :=
  if l = [] then []
  else normalizeSmallKana (normalizeDakuten (normalizeKana (normalizeEnding
    (normalizeSpecialCases l))))

/-- The candidate entries; the core only reads `jpName`. -/
structure Pokemon where
  id : Nat
  name : List Char
  jpName : List Char
  isFinalEvolution : Bool
  isRestricted : Bool

/-- The whitespace set removed by `String.prototype.trim`. -/
def jsWhitespace : List Char :=
  [' ', '\t', '\n', '\r', '\x0b', '\x0c',
   ' ', ' ', ' ', ' ', ' ', ' ', ' ',
   ' ', ' ', ' ', ' ', ' ', ' ',
   ' ', ' ', ' ', ' ', '　', '﻿']

/-- Source expression `curr.trim()`. -/
def jsTrim (l : List Char) : List Char :=
  (((l.dropWhile (fun c => jsWhitespace.contains c)).reverse.dropWhile
    (fun c => jsWhitespace.contains c)).reverse)

/-- Source `getShiritoriValidity`.  Note two JS artefacts carried over
faithfully: `slice(-1)` of an empty string is the empty string (so the
prefix check is against the empty string, which always succeeds), while
`s[0]` of an empty string is `undefined`, and `endsWith(undefined)`
coerces its argument to the literal text "undefined". -/
def getShiritoriValidity (prev next : Option Pokemon) (curr : List Char) : Bool :=
  if jsTrim curr = [] then true
  else
    let normalizedCurr := normalize curr
    let prevName := (prev.map Pokemon.jpName).getD []
    let nextName := (next.map Pokemon.jpName).getD []
    let prevMatch :=
      if prevName = [] then true
      else
        let lastChar :=
          match (normalize prevName).getLast? with
          | some c => [c]
          | none => []
        lastChar.isPrefixOf normalizedCurr
    let nextMatch :=
      if nextName = [] then true
      else
        match (normalize nextName).head? with
        | some c => List.isSuffixOf [c] normalizedCurr
        | none => List.isSuffixOf "undefined".toList normalizedCurr
    prevMatch && nextMatch

/-- The validity predicate as the specification sentence states it
(written from the claim wording, for comparison with the source
definition): an empty-after-trim candidate is valid; otherwise the
candidate key must start with the last character of the predecessor key
(when a predecessor name is present and non-empty) and end with the first
character of the successor key (when a successor name is present and
non-empty).  "The last/first character" presupposes the key has one: the
constraint is unsatisfiable when the neighbor key is empty. -/
def claimedValidity (prev next : Option Pokemon) (curr : List Char) : Bool :=
  if jsTrim curr = [] then true
  else
    let prevName := (prev.map Pokemon.jpName).getD []
    let nextName := (next.map Pokemon.jpName).getD []
    let prevOk :=
      if prevName = [] then true
      else
        match (normalize prevName).getLast? with
        | some c => [c].isPrefixOf (normalize curr)
        | none => false
    let nextOk :=
      if nextName = [] then true
      else
        match (normalize nextName).head? with
        | some c => List.isSuffixOf [c] (normalize curr)
        | none => false
    prevOk && nextOk

/-! ### Character-class predicates used by the verification -/

/-- The uppercase ranges handled by the lowercase model. -/
def isUpper (c : Char) : Prop :=
  (0x41 ≤ c.toNat ∧ c.toNat ≤ 0x5A) ∨
    (0xC0 ≤ c.toNat ∧ c.toNat ≤ 0xDE ∧ c.toNat ≠ 0xD7)

instance (c : Char) : Decidable (isUpper c) := by
  unfold isUpper; infer_instance

/-- A character already in the form produced by the script-unification
pass: NFKC-stable, not hiragana, not an uppercase letter. -/
def good3 (c : Char) : Prop := nfkcStable c ∧ ¬isHira c ∧ ¬isUpper c

instance (c : Char) : Decidable (good3 c) := by
  unfold good3; infer_instance

/-- The character map applied by the kana pass after its NFKC step:
hiragana shift, then lowercasing. -/
def kanaChar (c : Char) : Char := toLowerChar (shiftChar c)

/-- What `normalize` guarantees about its output unconditionally: every
character is NFKC-stable, non-hiragana, non-uppercase and non-small, and
the last character is not the long-vowel mark.  The devoiced-edge
property is deliberately absent: a combining voicing mark left in the key
can re-voice an edge character through the composition phase of the final
NFKC step (see the corrected claims). -/
def canonicalKey (t : List Char) : Prop :=
  (∀ c ∈ t, good3 c ∧ isSmallKana c = false) ∧
  (∀ c, t.getLast? = some c → c ≠ 'ー')

/-- A character demonstrably untouched by every pass of the program: it
lies in one of three ranges on which the NFKC and lowercase models are
exact — printable ASCII (U+0020..U+007E), the katakana block
(U+30A0..U+30FF) and the CJK unified ideographs (U+4E00..U+9FFF), all
NFKC-invariant and free of uppercase letters apart from ASCII A..Z — and
it is not an ASCII capital, carries no dakuten-table entry, is not a
small kana, and is not the long-vowel mark.  The combining voicing marks
lie outside the three ranges, so no composition can fire either. -/
def untouched (c : Char) : Prop :=
  ((0x20 ≤ c.toNat ∧ c.toNat ≤ 0x7E) ∨ (0x30A0 ≤ c.toNat ∧ c.toNat ≤ 0x30FF) ∨
    (0x4E00 ≤ c.toNat ∧ c.toNat ≤ 0x9FFF)) ∧
  ¬isUpper c ∧ dakutenMap.lookup c = none ∧ isSmallKana c = false ∧ c ≠ 'ー'

instance (c : Char) : Decidable (untouched c) := by
  unfold untouched; infer_instance

/-! ### Generic helper lemmas -/

theorem char_eq_of_toNat {a b : Char} (h : a.toNat = b.toNat) : a = b :=
  Char.eq_of_val_eq (UInt32.ext h)

theorem charOfNat_toNat {n : Nat} (h : n < 0xD800) : (Char.ofNat n).toNat = n := by
  have hv : n.isValidChar := Or.inl h
  simp [Char.ofNat, hv, Char.ofNatAux, Char.toNat, UInt32.toNat, BitVec.toNat_ofNatLt]

theorem map_self {f : Char → Char} {l : List Char} (h : ∀ c ∈ l, f c = c) :
    l.map f = l := by
  induction l with
  | nil => rfl
  | cons a t ih =>
    simp only [List.map_cons]
    rw [h a (List.mem_cons_self a t), ih (fun c hc => h c (List.mem_cons_of_mem a hc))]

theorem replaceChar_self {k : Char} {rep l : List Char} (h : ∀ c ∈ l, c ≠ k) :
    replaceChar k rep l = l := by
  induction l with
  | nil => rfl
  | cons a t ih =>
    simp only [replaceChar, List.flatMap_cons]
    rw [if_neg (h a (List.mem_cons_self a t))]
    have := ih (fun c hc => h c (List.mem_cons_of_mem a hc))
    simp only [replaceChar] at this
    simp [this]

theorem lookup_mem {β : Type} {l : List (Char × β)} {c : Char} {v : β}
    (h : l.lookup c = some v) : (c, v) ∈ l := by
  induction l with
  | nil => simp [List.lookup] at h
  | cons p t ih =>
    rw [List.lookup] at h
    by_cases hk : c = p.1
    · simp [hk] at h
      cases p
      simp_all
    · have : (c == p.1) = false := by simp [hk]
      rw [this] at h
      exact List.mem_cons_of_mem _ (ih h)

theorem head?_dropWhile_false {p : Char → Bool} {l : List Char} {c : Char}
    (h : (l.dropWhile p).head? = some c) : p c = false := by
  induction l with
  | nil => simp [List.dropWhile] at h
  | cons a t ih =>
    rw [List.dropWhile] at h
    by_cases hp : p a
    · rw [hp] at h; exact ih h
    · simp only [Bool.not_eq_true] at hp
      rw [hp] at h
      simp at h
      rw [← h]; exact hp

theorem dropWhile_eq_self {p : Char → Bool} {l : List Char}
    (h : ∀ c, l.head? = some c → p c = false) : l.dropWhile p = l := by
  cases l with
  | nil => rfl
  | cons a t => rw [List.dropWhile, h a rfl]

/-! ### Case analyses of the character-level maps -/

theorem shiftChar_cases (c : Char) :
    ((0x3041 ≤ c.toNat ∧ c.toNat ≤ 0x3096) ∧ (shiftChar c).toNat = c.toNat + 0x60) ∨
    ((shiftChar c).toNat = c.toNat ∧ ¬(0x3041 ≤ c.toNat ∧ c.toNat ≤ 0x3096)) := by
  unfold shiftChar
  split_ifs with h1
  · exact Or.inl ⟨h1, charOfNat_toNat (by omega)⟩
  · exact Or.inr ⟨rfl, h1⟩

theorem toLowerChar_cases (c : Char) :
    ((0x41 ≤ c.toNat ∧ c.toNat ≤ 0x5A) ∧ (toLowerChar c).toNat = c.toNat + 0x20) ∨
    ((0xC0 ≤ c.toNat ∧ c.toNat ≤ 0xDE ∧ c.toNat ≠ 0xD7) ∧
      (toLowerChar c).toNat = c.toNat + 0x20) ∨
    ((toLowerChar c).toNat = c.toNat ∧ ¬(0x41 ≤ c.toNat ∧ c.toNat ≤ 0x5A) ∧
      ¬(0xC0 ≤ c.toNat ∧ c.toNat ≤ 0xDE ∧ c.toNat ≠ 0xD7)) := by
  unfold toLowerChar
  split_ifs with h1 h2
  · exact Or.inl ⟨h1, charOfNat_toNat (by omega)⟩
  · exact Or.inr (Or.inl ⟨h2, charOfNat_toNat (by omega)⟩)
  · exact Or.inr (Or.inr ⟨rfl, h1, h2⟩)

theorem shiftChar_self {c : Char} (h : ¬isHira c) : shiftChar c = c := by
  unfold isHira at h
  unfold shiftChar
  rw [if_neg h]

theorem toLowerChar_self {c : Char} (h : ¬isUpper c) : toLowerChar c = c := by
  unfold isUpper at h
  unfold toLowerChar
  rw [if_neg (fun ha => h (Or.inl ha)), if_neg (fun hb => h (Or.inr hb))]

theorem ne_of_toNat_ne' {a b : Char} (h : a.toNat ≠ b.toNat) : a ≠ b :=
  fun he => h (congrArg Char.toNat he)

theorem lookup_eq_none_of_ne {β : Type} {m : List (Char × β)} {c : Char}
    (h : ∀ p ∈ m, p.1 ≠ c) : m.lookup c = none := by
  induction m with
  | nil => rfl
  | cons p t ih =>
    rw [List.lookup]
    have : (c == p.1) = false := by
      simp only [beq_eq_false_iff_ne, ne_eq]
      exact fun he => h p (List.mem_cons_self p t) he.symm
    rw [this]
    exact ih (fun q hq => h q (List.mem_cons_of_mem p hq))

/-- The keys of the extra NFKC table all lie at U+309B/U+309C or in the
half-width block U+FF61..U+FF9F. -/
theorem nfkcMap_keys :
    ∀ p ∈ nfkcMap, p.1.toNat = 0x309B ∨ p.1.toNat = 0x309C ∨
      (0xFF61 ≤ p.1.toNat ∧ p.1.toNat ≤ 0xFF9F) := by
  decide

/-- A character outside every NFKC-relevant region is NFKC-stable. -/
theorem nfkcStable_of_toNat {c : Char}
    (h1 : ¬(0xFF01 ≤ c.toNat ∧ c.toNat ≤ 0xFF5E)) (h2 : c.toNat ≠ 0x3000)
    (h3 : c.toNat ≠ 0x309B) (h4 : c.toNat ≠ 0x309C)
    (h5 : ¬(0xFF61 ≤ c.toNat ∧ c.toNat ≤ 0xFF9F)) : nfkcStable c := by
  unfold nfkcStable nfkcDecomp
  rw [if_neg h1, if_neg h2]
  have hl : nfkcMap.lookup c = none := by
    apply lookup_eq_none_of_ne
    intro p hp he
    rcases nfkcMap_keys p hp with hk | hk | hk <;> rw [he] at hk <;> omega
  rw [hl]

/-- Every character produced by the decomposition step is itself
NFKC-stable. -/
theorem nfkcDecomp_stable {c d : Char} (h : d ∈ nfkcDecomp c) : nfkcStable d := by
  unfold nfkcDecomp at h
  by_cases h1 : 0xFF01 ≤ c.toNat ∧ c.toNat ≤ 0xFF5E
  · rw [if_pos h1] at h
    rw [List.mem_singleton] at h
    have hofn : (Char.ofNat (c.toNat - 0xFEE0)).toNat = c.toNat - 0xFEE0 :=
      charOfNat_toNat (by omega)
    have hd : d.toNat = c.toNat - 0xFEE0 := by rw [h, hofn]
    refine nfkcStable_of_toNat ?_ ?_ ?_ ?_ ?_ <;> rw [hd] <;> omega
  · rw [if_neg h1] at h
    by_cases h2 : c.toNat = 0x3000
    · rw [if_pos h2] at h
      simp at h
      subst h
      decide
    · rw [if_neg h2] at h
      cases hl : nfkcMap.lookup c with
      | some s =>
        rw [hl] at h
        have h' : d ∈ s := h
        exact (by decide : ∀ p ∈ nfkcMap, ∀ d ∈ p.2, nfkcStable d) _
          (lookup_mem hl) d h'
      | none =>
        rw [hl] at h
        have h' : d ∈ [c] := h
        simp at h'
        subst h'
        unfold nfkcStable nfkcDecomp
        rw [if_neg h1, if_neg h2, hl]

/-- Decomposing a non-voicing character yields no combining voicing
marks. -/
theorem nfkcDecomp_notMark {c d : Char} (hc : ¬isVoicingChar c)
    (h : d ∈ nfkcDecomp c) : d ≠ '\u3099' ∧ d ≠ '\u309A' := by
  have e1 : ('\u3099' : Char).toNat = 0x3099 := rfl
  have e2 : ('\u309A' : Char).toNat = 0x309A := rfl
  unfold nfkcDecomp at h
  by_cases h1 : 0xFF01 ≤ c.toNat ∧ c.toNat ≤ 0xFF5E
  · rw [if_pos h1] at h
    rw [List.mem_singleton] at h
    have hofn : (Char.ofNat (c.toNat - 0xFEE0)).toNat = c.toNat - 0xFEE0 :=
      charOfNat_toNat (by omega)
    have hd : d.toNat = c.toNat - 0xFEE0 := by rw [h, hofn]
    refine ⟨ne_of_toNat_ne' ?_, ne_of_toNat_ne' ?_⟩
    · rw [hd, e1]; omega
    · rw [hd, e2]; omega
  · rw [if_neg h1] at h
    by_cases h2 : c.toNat = 0x3000
    · rw [if_pos h2] at h
      simp at h
      subst h
      decide
    · rw [if_neg h2] at h
      cases hl : nfkcMap.lookup c with
      | some s =>
        rw [hl] at h
        have h' : d ∈ s := h
        have hm := lookup_mem hl
        rcases (by decide : ∀ p ∈ nfkcMap,
            (isVoicingChar p.1) ∨ (∀ d ∈ p.2, d ≠ '\u3099' ∧ d ≠ '\u309A')) _ hm with
          hv | hd
        · exact absurd hv hc
        · exact hd d h'
      | none =>
        rw [hl] at h
        have h' : d ∈ [c] := h
        simp at h'
        subst h'
        constructor <;> intro he <;> rw [he] at hc <;> exact hc (by decide)

/-! ### The canonical-composition phase -/

theorem compMap_value_facts :
    ∀ p ∈ compMap, nfkcStable p.2 ∧ (isHira p.2 → isHira p.1) ∧ ¬isUpper p.2 ∧
      isSmallKana p.2 = false ∧ p.2 ≠ 'ー' ∧ p.2 ≠ '゙' ∧ p.2 ≠ '゚' ∧
      compMap.lookup p.2 = none ∧ compMapH.lookup p.2 = none := by
  decide

theorem compMapH_value_facts :
    ∀ p ∈ compMapH, nfkcStable p.2 ∧ (isHira p.2 → isHira p.1) ∧ ¬isUpper p.2 ∧
      isSmallKana p.2 = false ∧ p.2 ≠ 'ー' ∧ p.2 ≠ '゙' ∧ p.2 ≠ '゚' ∧
      compMap.lookup p.2 = none ∧ compMapH.lookup p.2 = none := by
  decide

theorem composePair_none_of_ne {a b : Char} (h9 : b ≠ '゙') (hA : b ≠ '゚') :
    composePair a b = none := by
  unfold composePair
  rw [if_neg h9, if_neg hA]

theorem composePair_none_of_not_key {a : Char}
    (h1 : compMap.lookup a = none) (h2 : compMapH.lookup a = none) (b : Char) :
    composePair a b = none := by
  unfold composePair
  split_ifs <;> first | exact h1 | exact h2 | rfl

theorem composePair_some_cases {a b v : Char} (h : composePair a b = some v) :
    compMap.lookup a = some v ∨ compMapH.lookup a = some v := by
  unfold composePair at h
  split_ifs at h
  · exact Or.inl h
  · exact Or.inr h

/-- Everything true of a character produced by the composition phase. -/
theorem composePair_value_facts {a b v : Char} (h : composePair a b = some v) :
    nfkcStable v ∧ (isHira v → isHira a) ∧ ¬isUpper v ∧ isSmallKana v = false ∧
      v ≠ 'ー' ∧ v ≠ '゙' ∧ v ≠ '゚' ∧
      compMap.lookup v = none ∧ compMapH.lookup v = none := by
  rcases composePair_some_cases h with hl | hl
  · exact compMap_value_facts _ (lookup_mem hl)
  · exact compMapH_value_facts _ (lookup_mem hl)

theorem nfkcCompose_cons (a : Char) (rest : List Char) :
    nfkcCompose (a :: rest) =
      match nfkcCompose rest with
      | [] => [a]
      | b :: rest' =>
        match composePair a b with
        | some v => v :: rest'
        | none => a :: b :: rest' := rfl

theorem nfkcCompose_cons_nil {a : Char} {rest : List Char}
    (hr : nfkcCompose rest = []) : nfkcCompose (a :: rest) = [a] := by
  rw [nfkcCompose_cons, hr]

theorem nfkcCompose_cons_cons {a b : Char} {rest rest' : List Char}
    (hr : nfkcCompose rest = b :: rest') :
    nfkcCompose (a :: rest) =
      match composePair a b with
      | some v => v :: rest'
      | none => a :: b :: rest' := by
  rw [nfkcCompose_cons, hr]

theorem nfkcCompose_comp_some {a b v : Char} {rest rest' : List Char}
    (hr : nfkcCompose rest = b :: rest') (hp : composePair a b = some v) :
    nfkcCompose (a :: rest) = v :: rest' := by
  rw [nfkcCompose_cons_cons hr, hp]

theorem nfkcCompose_comp_none {a b : Char} {rest rest' : List Char}
    (hr : nfkcCompose rest = b :: rest') (hp : composePair a b = none) :
    nfkcCompose (a :: rest) = a :: b :: rest' := by
  rw [nfkcCompose_cons_cons hr, hp]

theorem nfkcCompose_self_of_noMarks {l : List Char}
    (h : ∀ c ∈ l, c ≠ '゙' ∧ c ≠ '゚') : nfkcCompose l = l := by
  induction l with
  | nil => rfl
  | cons a rest ih =>
    have hr : nfkcCompose rest = rest :=
      ih (fun c hc => h c (List.mem_cons_of_mem a hc))
    cases rest with
    | nil => rfl
    | cons b rest'' =>
      exact nfkcCompose_comp_none hr
        (composePair_none_of_ne (h b (by simp)).1 (h b (by simp)).2)

theorem composedForm_tail {a : Char} {l : List Char}
    (h : composedForm (a :: l)) : composedForm l := by
  cases l with
  | nil => trivial
  | cons b rest => exact h.2

theorem nfkcCompose_self_of_composedForm {l : List Char} (h : composedForm l) :
    nfkcCompose l = l := by
  induction l with
  | nil => rfl
  | cons a rest ih =>
    have hr := ih (composedForm_tail h)
    cases rest with
    | nil => rfl
    | cons b rest'' => exact nfkcCompose_comp_none hr h.1

theorem nfkcCompose_ne_nil {a : Char} {l : List Char} :
    nfkcCompose (a :: l) ≠ [] := by
  cases hr : nfkcCompose l with
  | nil => rw [nfkcCompose_cons_nil hr]; simp
  | cons b rest' =>
    cases hp : composePair a b with
    | some v => rw [nfkcCompose_comp_some hr hp]; simp
    | none => rw [nfkcCompose_comp_none hr hp]; simp

theorem composedForm_nfkcCompose (l : List Char) : composedForm (nfkcCompose l) := by
  induction l with
  | nil => trivial
  | cons a rest ih =>
    cases hr : nfkcCompose rest with
    | nil => rw [nfkcCompose_cons_nil hr]; trivial
    | cons b rest' =>
      rw [hr] at ih
      cases hp : composePair a b with
      | some v =>
        rw [nfkcCompose_comp_some hr hp]
        have hv := composePair_value_facts hp
        cases rest' with
        | nil => trivial
        | cons d rest'' =>
          exact ⟨composePair_none_of_not_key hv.2.2.2.2.2.2.2.1 hv.2.2.2.2.2.2.2.2 d,
            composedForm_tail ih⟩
      | none =>
        rw [nfkcCompose_comp_none hr hp]
        exact ⟨hp, ih⟩

theorem composedForm_append_left {s t : List Char}
    (h : composedForm (s ++ t)) : composedForm s := by
  induction s with
  | nil => trivial
  | cons a s' ih =>
    cases s' with
    | nil => trivial
    | cons b s'' =>
      have h' : composedForm (a :: b :: (s'' ++ t)) := h
      exact ⟨h'.1, ih h'.2⟩

theorem mem_nfkcCompose {l : List Char} {c : Char} (h : c ∈ nfkcCompose l) :
    c ∈ l ∨ ∃ a ∈ l, ∃ b, composePair a b = some c := by
  induction l with
  | nil => simp [nfkcCompose] at h
  | cons a rest ih =>
    have step : c ∈ nfkcCompose rest →
        c ∈ a :: rest ∨ ∃ x ∈ a :: rest, ∃ b, composePair x b = some c := by
      intro hcr
      rcases ih hcr with hm | ⟨x, hx, b', hb'⟩
      · exact Or.inl (List.mem_cons_of_mem a hm)
      · exact Or.inr ⟨x, List.mem_cons_of_mem a hx, b', hb'⟩
    cases hr : nfkcCompose rest with
    | nil =>
      rw [nfkcCompose_cons_nil hr] at h
      simp at h
      subst h
      exact Or.inl (List.mem_cons_self c rest)
    | cons b rest' =>
      cases hp : composePair a b with
      | some v =>
        rw [nfkcCompose_comp_some hr hp] at h
        rcases List.mem_cons.mp h with rfl | hc'
        · exact Or.inr ⟨a, List.mem_cons_self a rest, b, hp⟩
        · exact step (by rw [hr]; exact List.mem_cons_of_mem b hc')
      | none =>
        rw [nfkcCompose_comp_none hr hp] at h
        rcases List.mem_cons.mp h with rfl | hc'
        · exact Or.inl (List.mem_cons_self c rest)
        · exact step (by rw [hr]; exact hc')

theorem nfkcCompose_getLast? (l : List Char) :
    (nfkcCompose l).getLast? = l.getLast? ∨
    ∃ a b v, composePair a b = some v ∧ (nfkcCompose l).getLast? = some v := by
  induction l with
  | nil => exact Or.inl rfl
  | cons a rest ih =>
    cases hr : nfkcCompose rest with
    | nil =>
      rw [nfkcCompose_cons_nil hr]
      cases rest with
      | nil => exact Or.inl rfl
      | cons y ys => exact absurd hr nfkcCompose_ne_nil
    | cons b rest' =>
      have hrne : rest ≠ [] := by
        intro he
        rw [he] at hr
        simp [nfkcCompose] at hr
      have hlast : (a :: rest).getLast? = rest.getLast? := by
        cases rest with
        | nil => exact absurd rfl hrne
        | cons y ys => exact List.getLast?_cons_cons
      rw [hr] at ih
      cases hp : composePair a b with
      | some v =>
        rw [nfkcCompose_comp_some hr hp]
        cases rest' with
        | nil => exact Or.inr ⟨a, b, v, hp, rfl⟩
        | cons d rest'' =>
          rw [List.getLast?_cons_cons]
          rw [List.getLast?_cons_cons] at ih
          rcases ih with hsame | ⟨x, y', w, hw, hv⟩
          · rw [hlast]; exact Or.inl hsame
          · exact Or.inr ⟨x, y', w, hw, hv⟩
      | none =>
        rw [nfkcCompose_comp_none hr hp]
        rw [List.getLast?_cons_cons]
        rcases ih with hsame | hval
        · rw [hlast]; exact Or.inl hsame
        · exact Or.inr hval

/-! ### The decomposition phase on lists -/

theorem flatMap_self {l : List Char} (h : ∀ c ∈ l, nfkcStable c) :
    l.flatMap nfkcDecomp = l := by
  induction l with
  | nil => rfl
  | cons a rest ih =>
    have ha := h a (List.mem_cons_self a rest)
    unfold nfkcStable at ha
    rw [List.flatMap_cons, ha, ih (fun c hc => h c (List.mem_cons_of_mem a hc))]
    rfl

theorem mem_replaceChar {k c : Char} {rep l : List Char}
    (h : c ∈ replaceChar k rep l) : c ∈ rep ∨ c ∈ l := by
  unfold replaceChar at h
  obtain ⟨a, ha, hc⟩ := List.mem_flatMap.mp h
  by_cases hk : a = k
  · rw [if_pos hk] at hc
    exact Or.inl hc
  · rw [if_neg hk] at hc
    simp at hc
    subst hc
    exact Or.inr ha

/-! ### Structure of the edge-restricted dakuten pass -/

theorem mapLast_cons_ne_nil (f : Char → Char) (b : Char) (u : List Char) :
    mapLast f (b :: u) ≠ [] := by
  cases u <;> simp [mapLast]

theorem mapLast_getLast? (f : Char → Char) (l : List Char) :
    (mapLast f l).getLast? = l.getLast?.map f := by
  induction l with
  | nil => rfl
  | cons a t ih =>
    cases t with
    | nil => rfl
    | cons b u =>
      simp only [mapLast]
      cases hm : mapLast f (b :: u) with
      | nil => exact absurd hm (mapLast_cons_ne_nil f b u)
      | cons x v =>
        rw [List.getLast?_cons_cons, ← hm, ih, List.getLast?_cons_cons]

theorem mapLast_dropLast (f : Char → Char) (l : List Char) :
    (mapLast f l).dropLast = l.dropLast := by
  induction l with
  | nil => rfl
  | cons a t ih =>
    cases t with
    | nil => rfl
    | cons b u =>
      simp only [mapLast]
      cases hu : mapLast f (b :: u) with
      | nil => exact absurd hu (mapLast_cons_ne_nil f b u)
      | cons x v =>
        rw [List.dropLast_cons₂, ← hu, ih, List.dropLast_cons₂]

theorem mapLast_self {f : Char → Char} {l : List Char}
    (h : ∀ c, l.getLast? = some c → f c = c) : mapLast f l = l := by
  induction l with
  | nil => rfl
  | cons a t ih =>
    cases t with
    | nil => simp only [mapLast]; rw [h a rfl]
    | cons b u =>
      simp only [mapLast]
      rw [ih]
      intro c hc
      exact h c (by rw [List.getLast?_cons_cons]; exact hc)

theorem mem_mapLast {f : Char → Char} {l : List Char} {c : Char}
    (h : c ∈ mapLast f l) : c ∈ l ∨ ∃ a ∈ l, c = f a := by
  induction l with
  | nil => simp [mapLast] at h
  | cons a t ih =>
    cases t with
    | nil =>
      simp only [mapLast] at h
      simp at h
      exact Or.inr ⟨a, by simp, h⟩
    | cons b u =>
      simp only [mapLast] at h
      rcases List.mem_cons.mp h with h | h
      · exact Or.inl (by simp [h])
      · rcases ih h with h | ⟨x, hx, he⟩
        · exact Or.inl (List.mem_cons_of_mem _ h)
        · exact Or.inr ⟨x, List.mem_cons_of_mem _ hx, he⟩

theorem normalizeDakuten_head? (l : List Char) :
    (normalizeDakuten l).head? = l.head?.map dRepl := by
  cases l with
  | nil => rfl
  | cons a t => rfl

theorem normalizeDakuten_getLast? (l : List Char) :
    (normalizeDakuten l).getLast? = l.getLast?.map dRepl := by
  cases l with
  | nil => rfl
  | cons a t =>
    cases t with
    | nil => rfl
    | cons b u =>
      simp only [normalizeDakuten]
      cases hm : mapLast dRepl (b :: u) with
      | nil => exact absurd hm (mapLast_cons_ne_nil _ b u)
      | cons x v =>
        rw [List.getLast?_cons_cons, ← hm, mapLast_getLast?, List.getLast?_cons_cons]

theorem mem_normalizeDakuten {l : List Char} {c : Char}
    (h : c ∈ normalizeDakuten l) : c ∈ l ∨ ∃ a ∈ l, c = dRepl a := by
  cases l with
  | nil => simp [normalizeDakuten] at h
  | cons a t =>
    rw [normalizeDakuten] at h
    rcases List.mem_cons.mp h with h | h
    · exact Or.inr ⟨a, by simp, h⟩
    · rcases mem_mapLast h with h | ⟨x, hx, he⟩
      · exact Or.inl (List.mem_cons_of_mem _ h)
      · exact Or.inr ⟨x, List.mem_cons_of_mem _ hx, he⟩

theorem normalizeDakuten_self {l : List Char}
    (hh : ∀ c, l.head? = some c → dRepl c = c)
    (hl : ∀ c, l.getLast? = some c → dRepl c = c) : normalizeDakuten l = l := by
  cases l with
  | nil => rfl
  | cons a t =>
    simp only [normalizeDakuten]
    rw [hh a rfl, mapLast_self]
    intro c hc
    cases t with
    | nil => simp at hc
    | cons b u =>
      exact hl c (by rw [List.getLast?_cons_cons]; exact hc)

theorem normalizeDakuten_interior (l : List Char) :
    ((normalizeDakuten l).drop 1).dropLast = (l.drop 1).dropLast := by
  cases l with
  | nil => rfl
  | cons a t =>
    rw [normalizeDakuten]
    simp only [List.drop_one, List.tail_cons]
    rw [mapLast_dropLast]

/-! ### Table facts for the dakuten and small-kana passes -/

theorem dRepl_of_lookup_none {c : Char} (h : dakutenMap.lookup c = none) :
    dRepl c = c := by
  unfold dRepl
  rw [h]
  rfl

theorem dRepl_not_key (c : Char) : dakutenMap.lookup (dRepl c) = none := by
  cases h : dakutenMap.lookup c with
  | none => rw [dRepl_of_lookup_none h]; exact h
  | some v =>
    have hm : (c, v) ∈ dakutenMap := lookup_mem h
    have hd : dRepl c = v := by unfold dRepl; rw [h]; rfl
    rw [hd]
    exact (by decide : ∀ p ∈ dakutenMap, dakutenMap.lookup p.2 = none) _ hm

theorem dRepl_good3 {c : Char} (h : good3 c) : good3 (dRepl c) := by
  cases hl : dakutenMap.lookup c with
  | none => rw [dRepl_of_lookup_none hl]; exact h
  | some v =>
    have hm : (c, v) ∈ dakutenMap := lookup_mem hl
    have hd : dRepl c = v := by unfold dRepl; rw [hl]; rfl
    rw [hd]
    exact (by decide : ∀ p ∈ dakutenMap, good3 p.2) _ hm

theorem dRepl_ne_mark {c : Char} (h : c ≠ 'ー') : dRepl c ≠ 'ー' := by
  cases hl : dakutenMap.lookup c with
  | none => rw [dRepl_of_lookup_none hl]; exact h
  | some v =>
    have hm : (c, v) ∈ dakutenMap := lookup_mem hl
    have hd : dRepl c = v := by unfold dRepl; rw [hl]; rfl
    rw [hd]
    exact (by decide : ∀ p ∈ dakutenMap, p.2 ≠ 'ー') _ hm

theorem dRepl_not_small {c : Char} (h : isSmallKana c = false) :
    isSmallKana (dRepl c) = false := by
  cases hl : dakutenMap.lookup c with
  | none => rw [dRepl_of_lookup_none hl]; exact h
  | some v =>
    have hm : (c, v) ∈ dakutenMap := lookup_mem hl
    have hd : dRepl c = v := by unfold dRepl; rw [hl]; rfl
    rw [hd]
    exact (by decide : ∀ p ∈ dakutenMap, isSmallKana p.2 = false) _ hm

theorem smallStep_self {c : Char} (h : isSmallKana c = false) : smallStep c = c := by
  unfold smallStep
  cases hl : smallMap.lookup c with
  | none => rfl
  | some v => rw [h]; rfl

theorem smallStep_not_small (c : Char) : isSmallKana (smallStep c) = false := by
  by_cases hs : isSmallKana c
  · have hmem : c ∈ "ぁぃぅぇぉっゃゅょゎ".toList ++ "ァィゥェォッャュョヮヵヶ".toList := by
      unfold isSmallKana at hs
      rcases Bool.or_eq_true_iff.mp hs with h | h
      · exact List.mem_append_left _ (List.elem_iff.mp h)
      · exact List.mem_append_right _ (List.elem_iff.mp h)
    exact (by decide :
      ∀ c ∈ "ぁぃぅぇぉっゃゅょゎ".toList ++ "ァィゥェォッャュョヮヵヶ".toList,
        isSmallKana (smallStep c) = false) _ hmem
  · rw [smallStep_self (Bool.not_eq_true _ ▸ hs)]
    exact Bool.not_eq_true _ ▸ hs

theorem smallStep_eq (c : Char) :
    smallStep c = c ∨ ((c, smallStep c) ∈ smallMap ∧ isSmallKana c = true) := by
  by_cases hs : isSmallKana c
  · cases hl : smallMap.lookup c with
    | none => left; unfold smallStep; rw [hl]
    | some v =>
      right
      have he : smallStep c = v := by unfold smallStep; rw [hl]; simp [hs]
      exact ⟨he ▸ lookup_mem hl, hs⟩
  · left; exact smallStep_self (by simpa using hs)

theorem smallStep_good3 {c : Char} (h : good3 c) : good3 (smallStep c) := by
  rcases smallStep_eq c with he | ⟨hm, hs⟩
  · rw [he]; exact h
  · rcases (by decide : ∀ p ∈ smallMap, isHira p.1 ∨ good3 p.2) _ hm with hk | hg
    · exact absurd hk h.2.1
    · exact hg

theorem smallStep_ne_mark {c : Char} (h : c ≠ 'ー') : smallStep c ≠ 'ー' := by
  rcases smallStep_eq c with he | ⟨hm, hs⟩
  · rw [he]; exact h
  · exact (by decide : ∀ p ∈ smallMap, p.2 ≠ 'ー') _ hm

theorem smallStep_not_key {c : Char} (h : dakutenMap.lookup c = none) :
    dakutenMap.lookup (smallStep c) = none := by
  rcases smallStep_eq c with he | ⟨hm, hs⟩
  · rw [he]; exact h
  · exact (by decide : ∀ p ∈ smallMap, dakutenMap.lookup p.2 = none) _ hm

/-! ### Guard-free reformulations of the passes -/

theorem normalizeSpecialCases_eq (l : List Char) :
    normalizeSpecialCases l =
      replaceChar 'Ｚ' "ゼット".toList (replaceChar '２' "ツー".toList l) := by
  unfold normalizeSpecialCases
  split_ifs with h
  · rw [h]; rfl
  · rfl

theorem normalizeEnding_eq (l : List Char) :
    normalizeEnding l = ((nfkc l).reverse.dropWhile (fun c => c = 'ー')).reverse := by
  unfold normalizeEnding
  split_ifs with h
  · rw [h]; rfl
  · rfl

theorem normalizeKana_eq (l : List Char) :
    normalizeKana l = (nfkc l).map kanaChar := by
  unfold normalizeKana
  split_ifs with h
  · rw [h]; rfl
  · rw [List.map_map]
    rfl

theorem normalizeSmallKana_eq (l : List Char) :
    normalizeSmallKana l = (nfkc l).map smallStep := by
  unfold normalizeSmallKana
  split_ifs with h
  · rw [h]; rfl
  · rfl

theorem normalize_eq (l : List Char) :
    normalize l = normalizeSmallKana (normalizeDakuten (normalizeKana (normalizeEnding
      (normalizeSpecialCases l)))) := by
  unfold normalize
  split_ifs with h
  · rw [h]; rfl
  · rfl

theorem nfkc_self {l : List Char} (hst : ∀ c ∈ l, nfkcStable c)
    (hcf : composedForm l) : nfkc l = l := by
  unfold nfkc
  rw [flatMap_self hst]
  exact nfkcCompose_self_of_composedForm hcf

theorem nfkc_self_of_noMarks {l : List Char} (hst : ∀ c ∈ l, nfkcStable c)
    (hnm : ∀ c ∈ l, c ≠ '\u3099' ∧ c ≠ '\u309A') : nfkc l = l := by
  unfold nfkc
  rw [flatMap_self hst]
  exact nfkcCompose_self_of_noMarks hnm

theorem mem_nfkc_stable {l : List Char} {c : Char} (h : c ∈ nfkc l) :
    nfkcStable c := by
  unfold nfkc at h
  rcases mem_nfkcCompose h with hm | ⟨a, ha, b, hb⟩
  · obtain ⟨x, hx, hd⟩ := List.mem_flatMap.mp hm
    exact nfkcDecomp_stable hd
  · exact (composePair_value_facts hb).1

theorem composedForm_of_noMarks {l : List Char}
    (h : ∀ c ∈ l, c ≠ '\u3099' ∧ c ≠ '\u309A') : composedForm l := by
  induction l with
  | nil => trivial
  | cons a rest ih =>
    cases rest with
    | nil => trivial
    | cons b u =>
      refine ⟨composePair_none_of_ne (h b (by simp)).1 (h b (by simp)).2, ?_⟩
      exact ih (fun c hc => h c (List.mem_cons_of_mem a hc))

theorem nfkcStable_ne_fullwidth {c : Char} (h : nfkcStable c) :
    c ≠ '２' ∧ c ≠ 'Ｚ' := by
  constructor <;> intro he <;> rw [he] at h <;> exact absurd h (by decide)

theorem kanaChar_stable {c : Char} (h : nfkcStable c) :
    nfkcStable (kanaChar c) := by
  unfold kanaChar
  rcases shiftChar_cases c with ⟨hr, hs⟩ | ⟨hs, hr⟩
  · rcases toLowerChar_cases (shiftChar c) with ⟨ht, hl⟩ | ⟨ht, hl⟩ | ⟨hl, ht1, ht2⟩ <;>
      (refine nfkcStable_of_toNat ?_ ?_ ?_ ?_ ?_ <;> omega)
  · rcases toLowerChar_cases (shiftChar c) with ⟨ht, hl⟩ | ⟨ht, hl⟩ | ⟨hl, ht1, ht2⟩
    · refine nfkcStable_of_toNat ?_ ?_ ?_ ?_ ?_ <;> omega
    · refine nfkcStable_of_toNat ?_ ?_ ?_ ?_ ?_ <;> omega
    · have he : toLowerChar (shiftChar c) = c := char_eq_of_toNat (by omega)
      rw [he]
      exact h

theorem kanaChar_not_hira (c : Char) : ¬isHira (kanaChar c) := by
  unfold kanaChar isHira
  have h1 := shiftChar_cases c
  have h2 := toLowerChar_cases (shiftChar c)
  omega

theorem kanaChar_not_upper (c : Char) : ¬isUpper (kanaChar c) := by
  unfold kanaChar isUpper
  have h1 := shiftChar_cases c
  have h2 := toLowerChar_cases (shiftChar c)
  omega

theorem kanaChar_ne_mark {c : Char} (h : c ≠ 'ー') : kanaChar c ≠ 'ー' := by
  have hm : ('ー' : Char).toNat = 0x30FC := rfl
  have hc : c.toNat ≠ 0x30FC := fun he => h (char_eq_of_toNat (by rw [he, hm]))
  apply ne_of_toNat_ne'
  unfold kanaChar
  rw [hm]
  have h1 := shiftChar_cases c
  have h2 := toLowerChar_cases (shiftChar c)
  omega

theorem kanaChar_notMark {c : Char} (h9 : c ≠ '\u3099') (hA : c ≠ '\u309A') :
    kanaChar c ≠ '\u3099' ∧ kanaChar c ≠ '\u309A' := by
  have e1 : ('\u3099' : Char).toNat = 0x3099 := rfl
  have e2 : ('\u309A' : Char).toNat = 0x309A := rfl
  have hc9 : c.toNat ≠ 0x3099 := fun he => h9 (char_eq_of_toNat (by rw [he, e1]))
  have hcA : c.toNat ≠ 0x309A := fun he => hA (char_eq_of_toNat (by rw [he, e2]))
  have h1 := shiftChar_cases c
  have h2 := toLowerChar_cases (shiftChar c)
  refine ⟨ne_of_toNat_ne' ?_, ne_of_toNat_ne' ?_⟩
  · unfold kanaChar
    rw [e1]
    omega
  · unfold kanaChar
    rw [e2]
    omega

theorem dRepl_stable {c : Char} (h : nfkcStable c) : nfkcStable (dRepl c) := by
  cases hl : dakutenMap.lookup c with
  | none => rw [dRepl_of_lookup_none hl]; exact h
  | some v =>
    have hd : dRepl c = v := by unfold dRepl; rw [hl]; rfl
    rw [hd]
    exact (by decide : ∀ p ∈ dakutenMap, nfkcStable p.2) _ (lookup_mem hl)

theorem dRepl_notMark {c : Char} (h9 : c ≠ '\u3099') (hA : c ≠ '\u309A') :
    dRepl c ≠ '\u3099' ∧ dRepl c ≠ '\u309A' := by
  cases hl : dakutenMap.lookup c with
  | none => rw [dRepl_of_lookup_none hl]; exact ⟨h9, hA⟩
  | some v =>
    have hd : dRepl c = v := by unfold dRepl; rw [hl]; rfl
    rw [hd]
    exact (by decide : ∀ p ∈ dakutenMap, p.2 ≠ '\u3099' ∧ p.2 ≠ '\u309A') _
      (lookup_mem hl)

theorem smallStep_notMark {c : Char} (h9 : c ≠ '\u3099') (hA : c ≠ '\u309A') :
    smallStep c ≠ '\u3099' ∧ smallStep c ≠ '\u309A' := by
  rcases smallStep_eq c with he | ⟨hm, hs⟩
  · rw [he]; exact ⟨h9, hA⟩
  · exact (by decide : ∀ p ∈ smallMap, p.2 ≠ '\u3099' ∧ p.2 ≠ '\u309A') _ hm

/-- The ending pass leaves no trailing long-vowel mark. -/
theorem normalizeEnding_getLast? {l : List Char} {c : Char}
    (h : (normalizeEnding l).getLast? = some c) : c ≠ 'ー' := by
  rw [normalizeEnding_eq, List.getLast?_reverse] at h
  have hp := head?_dropWhile_false h
  exact of_decide_eq_false hp

theorem mem_takeWhile_pred {p : Char → Bool} {l : List Char} {b : Char}
    (h : b ∈ l.takeWhile p) : p b = true := by
  induction l with
  | nil => simp [List.takeWhile] at h
  | cons a t ih =>
    by_cases hp : p a
    · rw [List.takeWhile_cons, if_pos hp] at h
      rcases List.mem_cons.mp h with rfl | h
      · exact hp
      · exact ih h
    · rw [List.takeWhile_cons, if_neg hp] at h
      simp at h

/-- The ending pass only removes trailing long-vowel marks: the
width-normalized input is the output followed by some number of marks. -/
theorem normalizeEnding_decomp (l : List Char) :
    ∃ k, nfkc l = normalizeEnding l ++ List.replicate k 'ー' := by
  rw [normalizeEnding_eq]
  refine ⟨((nfkc l).reverse.takeWhile (fun c => c = 'ー')).length, ?_⟩
  have hsplit := List.takeWhile_append_dropWhile (fun c => decide (c = 'ー'))
    (nfkc l).reverse
  have htake : (nfkc l).reverse.takeWhile (fun c => c = 'ー') =
      List.replicate ((nfkc l).reverse.takeWhile (fun c => c = 'ー')).length 'ー' := by
    rw [List.eq_replicate_iff]
    exact ⟨rfl, fun b hb => of_decide_eq_true (mem_takeWhile_pred hb)⟩
  calc nfkc l = (nfkc l).reverse.reverse := (List.reverse_reverse _).symm
    _ = ((nfkc l).reverse.takeWhile (fun c => c = 'ー') ++
          (nfkc l).reverse.dropWhile (fun c => c = 'ー')).reverse := by rw [hsplit]
    _ = ((nfkc l).reverse.dropWhile (fun c => c = 'ー')).reverse ++
          ((nfkc l).reverse.takeWhile (fun c => c = 'ー')).reverse := by
            rw [List.reverse_append]
    _ = _ := by rw [htake, List.reverse_replicate, List.length_replicate]

/-- Every ending-pass output consists of NFKC-stable characters and is in
composed form, being a prefix of an NFKC output. -/
theorem ending_stage (l : List Char) :
    (∀ c ∈ normalizeEnding l, nfkcStable c) ∧ composedForm (normalizeEnding l) := by
  constructor
  · intro c hc
    rw [normalizeEnding_eq, List.mem_reverse] at hc
    have hm : c ∈ (nfkc l).reverse := (List.dropWhile_sublist _).subset hc
    exact mem_nfkc_stable (List.mem_reverse.mp hm)
  · obtain ⟨k, hk⟩ := normalizeEnding_decomp l
    have hN : composedForm (nfkc l) := composedForm_nfkcCompose _
    rw [hk] at hN
    exact composedForm_append_left hN

/-! ### The canonical-key invariant -/

/-- The last three passes send any NFKC-stable, composed, mark-trimmed
list to a canonical key. -/
theorem key_of_stage {B : List Char} (hBst : ∀ c ∈ B, nfkcStable c)
    (hBcf : composedForm B) (hBlast : ∀ c, B.getLast? = some c → c ≠ 'ー') :
    canonicalKey (normalizeSmallKana (normalizeDakuten (normalizeKana B))) := by
  have hC : normalizeKana B = B.map kanaChar := by
    rw [normalizeKana_eq, nfkc_self hBst hBcf]
  rw [hC]
  have hCg : ∀ c ∈ B.map kanaChar, good3 c := by
    intro c hc
    obtain ⟨b, hb, rfl⟩ := List.mem_map.mp hc
    exact ⟨kanaChar_stable (hBst b hb), kanaChar_not_hira b, kanaChar_not_upper b⟩
  have hClast : ∀ c, (B.map kanaChar).getLast? = some c → c ≠ 'ー' := by
    intro c hc
    rw [List.getLast?_map] at hc
    obtain ⟨b, hb, rfl⟩ := Option.map_eq_some'.mp hc
    exact kanaChar_ne_mark (hBlast b hb)
  have hDg : ∀ c ∈ normalizeDakuten (B.map kanaChar), good3 c := by
    intro c hc
    rcases mem_normalizeDakuten hc with h | ⟨a, ha, rfl⟩
    · exact hCg c h
    · exact dRepl_good3 (hCg a ha)
  have hDlast : ∀ c, (normalizeDakuten (B.map kanaChar)).getLast? = some c →
      c ≠ 'ー' := by
    intro c hc
    rw [normalizeDakuten_getLast?] at hc
    obtain ⟨a, ha, rfl⟩ := Option.map_eq_some'.mp hc
    exact dRepl_ne_mark (hClast a ha)
  have hDfl : (normalizeDakuten (B.map kanaChar)).flatMap nfkcDecomp =
      normalizeDakuten (B.map kanaChar) :=
    flatMap_self (fun c hc => (hDg c hc).1)
  rw [normalizeSmallKana_eq]
  show canonicalKey
    ((nfkcCompose ((normalizeDakuten (B.map kanaChar)).flatMap nfkcDecomp)).map
      smallStep)
  rw [hDfl]
  constructor
  · intro c hc
    obtain ⟨e, he, rfl⟩ := List.mem_map.mp hc
    have heg : good3 e := by
      rcases mem_nfkcCompose he with hm | ⟨a, ha, b, hb⟩
      · exact hDg e hm
      · have hv := composePair_value_facts hb
        exact ⟨hv.1, fun hh => absurd (hv.2.1 hh) (hDg a ha).2.1, hv.2.2.1⟩
    exact ⟨smallStep_good3 heg, smallStep_not_small e⟩
  · intro c hc
    rw [List.getLast?_map] at hc
    obtain ⟨e, he, rfl⟩ := Option.map_eq_some'.mp hc
    apply smallStep_ne_mark
    rcases nfkcCompose_getLast? (normalizeDakuten (B.map kanaChar)) with hsame |
      ⟨x, y, v, hv, hlv⟩
    · rw [hsame] at he
      exact hDlast e he
    · rw [hlv] at he
      injection he with he'
      subst he'
      exact (composePair_value_facts hv).2.2.2.2.1

/-- Every output of the full pipeline is a canonical key. -/
theorem canonical_normalize (l : List Char) : canonicalKey (normalize l) := by
  rw [normalize_eq]
  exact key_of_stage (ending_stage (normalizeSpecialCases l)).1
    (ending_stage (normalizeSpecialCases l)).2
    (fun c hc => normalizeEnding_getLast? hc)

/-- A canonical key that carries no combining voicing mark and whose edge
characters have no dakuten-table entry is a fixed point of the
pipeline. -/
theorem normalize_fixed {t : List Char} (hk : canonicalKey t)
    (hnm : ∀ c ∈ t, c ≠ '\u3099' ∧ c ≠ '\u309A')
    (hh : ∀ c, t.head? = some c → dakutenMap.lookup c = none)
    (hl : ∀ c, t.getLast? = some c → dakutenMap.lookup c = none) :
    normalize t = t := by
  obtain ⟨hmem, hlast⟩ := hk
  have hst : ∀ c ∈ t, nfkcStable c := fun c hc => (hmem c hc).1.1
  have hnf : nfkc t = t := nfkc_self_of_noMarks hst hnm
  have h2 : ∀ c ∈ t, c ≠ '２' :=
    fun c hc => (nfkcStable_ne_fullwidth (hst c hc)).1
  have hz : ∀ c ∈ t, c ≠ 'Ｚ' :=
    fun c hc => (nfkcStable_ne_fullwidth (hst c hc)).2
  have e1 : normalizeSpecialCases t = t := by
    rw [normalizeSpecialCases_eq, replaceChar_self h2, replaceChar_self hz]
  have e2 : normalizeEnding t = t := by
    rw [normalizeEnding_eq, hnf, dropWhile_eq_self, List.reverse_reverse]
    intro c hc
    rw [List.head?_reverse] at hc
    exact decide_eq_false (hlast c hc)
  have e3 : normalizeKana t = t := by
    rw [normalizeKana_eq, hnf]
    apply map_self
    intro c hc
    unfold kanaChar
    rw [shiftChar_self (hmem c hc).1.2.1, toLowerChar_self (hmem c hc).1.2.2]
  have e4 : normalizeDakuten t = t :=
    normalizeDakuten_self (fun c hc => dRepl_of_lookup_none (hh c hc))
      (fun c hc => dRepl_of_lookup_none (hl c hc))
  have e5 : normalizeSmallKana t = t := by
    rw [normalizeSmallKana_eq, hnf]
    exact map_self (fun c hc => smallStep_self (hmem c hc).2)
  rw [normalize_eq, e1, e2, e3, e4, e5]

/-- The last three passes, applied to an NFKC-stable, composed, mark-free
list, produce a mark-free list whose edge characters carry no
dakuten-table entry. -/
theorem markfree_stage {B : List Char} (hBst : ∀ c ∈ B, nfkcStable c)
    (hBcf : composedForm B) (hBnm : ∀ c ∈ B, c ≠ '\u3099' ∧ c ≠ '\u309A') :
    (∀ c ∈ normalizeSmallKana (normalizeDakuten (normalizeKana B)),
        c ≠ '\u3099' ∧ c ≠ '\u309A') ∧
    (∀ c, (normalizeSmallKana (normalizeDakuten (normalizeKana B))).head? =
        some c → dakutenMap.lookup c = none) ∧
    (∀ c, (normalizeSmallKana (normalizeDakuten (normalizeKana B))).getLast? =
        some c → dakutenMap.lookup c = none) := by
  have hC : normalizeKana B = B.map kanaChar := by
    rw [normalizeKana_eq, nfkc_self hBst hBcf]
  rw [hC]
  have hCst : ∀ c ∈ B.map kanaChar, nfkcStable c := by
    intro c hc
    obtain ⟨b, hb, rfl⟩ := List.mem_map.mp hc
    exact kanaChar_stable (hBst b hb)
  have hCnm : ∀ c ∈ B.map kanaChar, c ≠ '\u3099' ∧ c ≠ '\u309A' := by
    intro c hc
    obtain ⟨b, hb, rfl⟩ := List.mem_map.mp hc
    exact kanaChar_notMark (hBnm b hb).1 (hBnm b hb).2
  have hDst : ∀ c ∈ normalizeDakuten (B.map kanaChar), nfkcStable c := by
    intro c hc
    rcases mem_normalizeDakuten hc with h | ⟨a, ha, rfl⟩
    · exact hCst c h
    · exact dRepl_stable (hCst a ha)
  have hDnm : ∀ c ∈ normalizeDakuten (B.map kanaChar), c ≠ '\u3099' ∧ c ≠ '\u309A' := by
    intro c hc
    rcases mem_normalizeDakuten hc with h | ⟨a, ha, rfl⟩
    · exact hCnm c h
    · exact dRepl_notMark (hCnm a ha).1 (hCnm a ha).2
  have hDnf : nfkc (normalizeDakuten (B.map kanaChar)) =
      normalizeDakuten (B.map kanaChar) := nfkc_self_of_noMarks hDst hDnm
  have hE : normalizeSmallKana (normalizeDakuten (B.map kanaChar)) =
      (normalizeDakuten (B.map kanaChar)).map smallStep := by
    rw [normalizeSmallKana_eq, hDnf]
  rw [hE]
  refine ⟨?_, ?_, ?_⟩
  · intro c hc
    obtain ⟨e, he, rfl⟩ := List.mem_map.mp hc
    exact smallStep_notMark (hDnm e he).1 (hDnm e he).2
  · intro c hc
    rw [List.head?_map, normalizeDakuten_head?] at hc
    obtain ⟨a, ha, rfl⟩ := Option.map_eq_some'.mp hc
    obtain ⟨x, hx, rfl⟩ := Option.map_eq_some'.mp ha
    exact smallStep_not_key (dRepl_not_key x)
  · intro c hc
    rw [List.getLast?_map, normalizeDakuten_getLast?] at hc
    obtain ⟨a, ha, rfl⟩ := Option.map_eq_some'.mp hc
    obtain ⟨x, hx, rfl⟩ := Option.map_eq_some'.mp ha
    exact smallStep_not_key (dRepl_not_key x)

/-- For an input free of voicing marks (combining, spacing or half-width),
the pipeline output is free of combining voicing marks and its edge
characters carry no dakuten-table entry. -/
theorem markfree_normalize {l : List Char} (hm : ∀ c ∈ l, ¬isVoicingChar c) :
    (∀ c ∈ normalize l, c ≠ '\u3099' ∧ c ≠ '\u309A') ∧
    (∀ c, (normalize l).head? = some c → dakutenMap.lookup c = none) ∧
    (∀ c, (normalize l).getLast? = some c → dakutenMap.lookup c = none) := by
  have hA : ∀ c ∈ normalizeSpecialCases l, ¬isVoicingChar c := by
    intro c hc
    rw [normalizeSpecialCases_eq] at hc
    rcases mem_replaceChar hc with h | hc'
    · exact (by decide : ∀ x ∈ "ゼット".toList, ¬isVoicingChar x) c h
    · rcases mem_replaceChar hc' with h | h
      · exact (by decide : ∀ x ∈ "ツー".toList, ¬isVoicingChar x) c h
      · exact hm c h
  have hBnm : ∀ c ∈ normalizeEnding (normalizeSpecialCases l),
      c ≠ '\u3099' ∧ c ≠ '\u309A' := by
    intro c hc
    rw [normalizeEnding_eq, List.mem_reverse] at hc
    have hmem : c ∈ nfkc (normalizeSpecialCases l) :=
      List.mem_reverse.mp ((List.dropWhile_sublist _).subset hc)
    rcases mem_nfkcCompose hmem with hfl | ⟨a, ha, b, hb⟩
    · obtain ⟨x, hx, hd⟩ := List.mem_flatMap.mp hfl
      exact nfkcDecomp_notMark (hA x hx) hd
    · have hv := composePair_value_facts hb
      exact ⟨hv.2.2.2.2.2.1, hv.2.2.2.2.2.2.1⟩
  rw [normalize_eq]
  exact markfree_stage (ending_stage (normalizeSpecialCases l)).1
    (ending_stage (normalizeSpecialCases l)).2 hBnm

/-! ### Hiragana-transliteration lemmas for script insensitivity -/

theorem ne_of_toNat_ne {a b : Char} (h : a.toNat ≠ b.toNat) : a ≠ b :=
  fun he => h (congrArg Char.toNat he)

/-- Facts about a hiragana character needed for the script-insensitivity
argument. -/
theorem hira_pre {c : Char} (h : isHira c) :
    c ≠ '２' ∧ c ≠ 'Ｚ' ∧ nfkcStable c ∧ (c ≠ '\u3099' ∧ c ≠ '\u309A') ∧ c ≠ 'ー' ∧
      kanaChar c = shiftChar c := by
  unfold isHira at h
  have h2 : ('２').toNat = 0xFF12 := rfl
  have hz : ('Ｚ').toNat = 0xFF3A := rfl
  have hm : ('ー').toNat = 0x30FC := rfl
  have e1 : ('\u3099' : Char).toNat = 0x3099 := rfl
  have e2 : ('\u309A' : Char).toNat = 0x309A := rfl
  refine ⟨ne_of_toNat_ne (by omega), ne_of_toNat_ne (by omega),
    nfkcStable_of_toNat (by omega) (by omega) (by omega) (by omega) (by omega),
    ⟨ne_of_toNat_ne (by omega), ne_of_toNat_ne (by omega)⟩,
    ne_of_toNat_ne (by omega), ?_⟩
  unfold kanaChar
  apply toLowerChar_self
  unfold isUpper
  rcases shiftChar_cases c with ⟨hr, hn⟩ | ⟨hn, hr⟩ <;> omega

/-- The same facts for the katakana shift of a hiragana character. -/
theorem hira_shifted {c : Char} (h : isHira c) :
    shiftChar c ≠ '２' ∧ shiftChar c ≠ 'Ｚ' ∧ nfkcStable (shiftChar c) ∧
      (shiftChar c ≠ '\u3099' ∧ shiftChar c ≠ '\u309A') ∧ shiftChar c ≠ 'ー' ∧
      kanaChar (shiftChar c) = shiftChar c := by
  unfold isHira at h
  have hd : 0x30A1 ≤ (shiftChar c).toNat ∧ (shiftChar c).toNat ≤ 0x30F6 := by
    rcases shiftChar_cases c with ⟨hr, hn⟩ | ⟨hn, hr⟩ <;> omega
  have h2 : ('２').toNat = 0xFF12 := rfl
  have hz : ('Ｚ').toNat = 0xFF3A := rfl
  have hm : ('ー').toNat = 0x30FC := rfl
  have e1 : ('\u3099' : Char).toNat = 0x3099 := rfl
  have e2 : ('\u309A' : Char).toNat = 0x309A := rfl
  refine ⟨ne_of_toNat_ne (by omega), ne_of_toNat_ne (by omega),
    nfkcStable_of_toNat (by omega) (by omega) (by omega) (by omega) (by omega),
    ⟨ne_of_toNat_ne (by omega), ne_of_toNat_ne (by omega)⟩,
    ne_of_toNat_ne (by omega), ?_⟩
  unfold kanaChar
  have hs : shiftChar (shiftChar c) = shiftChar c :=
    shiftChar_self (by unfold isHira; omega)
  have ht : toLowerChar (shiftChar c) = shiftChar c :=
    toLowerChar_self (by unfold isUpper; omega)
  rw [hs]
  exact ht

/-- A list whose characters carry no special-case key, are NFKC-stable,
carry no combining voicing mark and no long-vowel mark passes the first
two passes unchanged. -/
theorem first_two_passes_self {l : List Char}
    (h2 : ∀ c ∈ l, c ≠ '２') (hz : ∀ c ∈ l, c ≠ 'Ｚ')
    (hst : ∀ c ∈ l, nfkcStable c) (hnm : ∀ c ∈ l, c ≠ '\u3099' ∧ c ≠ '\u309A')
    (hm : ∀ c ∈ l, c ≠ 'ー') :
    normalizeEnding (normalizeSpecialCases l) = l := by
  have e1 : normalizeSpecialCases l = l := by
    rw [normalizeSpecialCases_eq, replaceChar_self h2, replaceChar_self hz]
  rw [e1, normalizeEnding_eq, nfkc_self_of_noMarks hst hnm, dropWhile_eq_self,
    List.reverse_reverse]
  intro c hc
  rw [List.head?_reverse] at hc
  exact decide_eq_false (hm c (List.mem_of_mem_getLast? hc))

/-! ### Helpers for the validator claims -/

theorem exists_getLast? {l : List Char} (h : l ≠ []) : ∃ c, l.getLast? = some c := by
  cases hl : l.getLast? with
  | some c => exact ⟨c, rfl⟩
  | none => exact absurd (List.getLast?_eq_none_iff.mp hl) h

theorem exists_head? {l : List Char} (h : l ≠ []) : ∃ c, l.head? = some c := by
  cases hl : l.head? with
  | some c => exact ⟨c, rfl⟩
  | none => exact absurd (List.head?_eq_none_iff.mp hl) h

/-! ### Claim theorems -/

/-- C1 counterexample: `normalize` is not idempotent.  For the half-width
input ｯﾞ (small tsu + voicing mark), the first run yields the small-kana
expansion ツ followed by the bare combining mark U+3099; the second run
recomposes them to ヅ during the NFKC step of the ending pass and then
devoices the edge to ツ. -/
theorem normalize_idem_cex :
    normalize (normalize "ｯﾞ".toList) ≠ normalize "ｯﾞ".toList := by
  decide

/-- C1 (corrected): `normalize` is idempotent on every input containing no
voicing-mark character (combining U+3099/U+309A, spacing U+309B/U+309C, or
half-width U+FF9E/U+FF9F) — in particular on every ordinary precomposed
name; the unconditional claim is refuted by the counterexample ｯﾞ. -/
theorem normalize_idem (l : List Char) (h : ∀ c ∈ l, ¬isVoicingChar c) :
    normalize (normalize l) = normalize l := by
  obtain ⟨hnm, hh, hl⟩ := markfree_normalize h
  exact normalize_fixed (canonical_normalize l) hnm hh hl

/-- Witness for the corrected C1 at a concrete input: "ポケモンー" carries
no voicing mark and its key is a fixed point. -/
theorem normalize_idem_witness :
    (∀ c ∈ "ポケモンー".toList, ¬isVoicingChar c) ∧
      normalize (normalize "ポケモンー".toList) = normalize "ポケモンー".toList :=
  ⟨by decide, normalize_idem "ポケモンー".toList (by decide)⟩

/-- C4: the canonical key contains no hiragana code point (range
U+3041..U+3096, the range the kana pass maps to katakana). -/
theorem normalize_no_hiragana :
    ∀ (l : List Char), ∀ c ∈ normalize l, ¬isHira c :=
  fun l c hc => ((canonical_normalize l).1 c hc).1.2.1

/-- Witness for C4 at a concrete input: hiragana あ normalizes to katakana
ア, which is not hiragana. -/
theorem normalize_no_hiragana_witness :
    'ア' ∈ normalize "あ".toList ∧ ¬isHira 'ア' :=
  ⟨by decide, normalize_no_hiragana "あ".toList 'ア' (by decide)⟩

/-- C8: the canonical key contains no small-kana form (in the sense of the
source predicate `isSmallKana`). -/
theorem normalize_no_small_kana :
    ∀ (l : List Char), ∀ c ∈ normalize l, isSmallKana c = false :=
  fun l c hc => ((canonical_normalize l).1 c hc).2

/-- Witness for C8 at a concrete input: "にゃん" normalizes to "ニヤン",
whose ヤ is not small. -/
theorem normalize_no_small_kana_witness :
    'ヤ' ∈ normalize "にゃん".toList ∧ isSmallKana 'ヤ' = false :=
  ⟨by decide, normalize_no_small_kana "にゃん".toList 'ヤ' (by decide)⟩

/-- C5 counterexample: the devoiced-edges invariant fails in general.  For
the input ガ followed by the bare combining mark U+3099, the dakuten pass
devoices the leading ガ to カ, but the NFKC step of the final small-kana
pass recomposes カ with the remaining mark back to ガ: the key's first
character ガ still carries a dakuten-table entry. -/
theorem normalize_edge_devoiced_cex :
    (normalize "ガ\u3099".toList).head? = some 'ガ' ∧
      dakutenMap.lookup 'ガ' = some 'カ' := by
  decide

/-- C5 (corrected): on every input containing no voicing-mark character,
the first and last characters of the canonical key have no entry in the
dakuten table; unconditionally, the dakuten pass leaves interior
characters untouched, and the concrete edge-devoicing examples hold:
`normalize "ガ" = normalize "カ"` and `normalize "ガド" = "カト"` (both
edges devoiced).  The unconditional edge claim is refuted by the
counterexample ガ + U+3099. -/
theorem normalize_edge_devoiced :
    (∀ (l : List Char) (c : Char), (∀ x ∈ l, ¬isVoicingChar x) →
        (normalize l).head? = some c → dakutenMap.lookup c = none) ∧
    (∀ (l : List Char) (c : Char), (∀ x ∈ l, ¬isVoicingChar x) →
        (normalize l).getLast? = some c → dakutenMap.lookup c = none) ∧
    (∀ l : List Char, ((normalizeDakuten l).drop 1).dropLast = (l.drop 1).dropLast) ∧
    normalize "ガ".toList = normalize "カ".toList ∧
    normalize "ガド".toList = "カト".toList :=
  ⟨fun l c hv hc => (markfree_normalize hv).2.1 c hc,
   fun l c hv hc => (markfree_normalize hv).2.2 c hc,
   normalizeDakuten_interior, by decide, by decide⟩

/-- Witness for the corrected C5 at a concrete input: "ガド" carries no
voicing mark and its key starts with the devoiced カ, which has no
dakuten-table entry. -/
theorem normalize_edge_devoiced_witness :
    (∀ x ∈ "ガド".toList, ¬isVoicingChar x) ∧
      (normalize "ガド".toList).head? = some 'カ' ∧
      dakutenMap.lookup 'カ' = none :=
  ⟨by decide, by decide,
   normalize_edge_devoiced.1 "ガド".toList 'カ' (by decide) (by decide)⟩

/-- C6: the ending pass removes long-vowel marks only from the end of the
width-normalized string (the input decomposes as output ++ trailing
marks), never leaves a trailing mark, `normalize "ポケモンー" = normalize
"ポケモン"`, and the interior mark of "ローラー" is preserved, so its key
differs from that of "ロウラ". -/
theorem ending_trailing_only :
    (∀ l : List Char, ∃ k, nfkc l = normalizeEnding l ++ List.replicate k 'ー') ∧
    (∀ (l : List Char) (c : Char), (normalizeEnding l).getLast? = some c → c ≠ 'ー') ∧
    normalize "ポケモンー".toList = normalize "ポケモン".toList ∧
    normalize "ローラー".toList ≠ normalize "ロウラ".toList :=
  ⟨normalizeEnding_decomp, fun _ _ h => normalizeEnding_getLast? h,
   by decide, by decide⟩

/-- Witness for C6 at a concrete input: "アー" loses its trailing mark and
ends in ア. -/
theorem ending_trailing_only_witness :
    (normalizeEnding "アー".toList).getLast? = some 'ア' ∧ 'ア' ≠ 'ー' :=
  ⟨by decide, ending_trailing_only.2.1 "アー".toList 'ア' (by decide)⟩

/-- C3 (code bug): the special-case table keys are the FULL-WIDTH digit
２ (U+FF12) and letter Ｚ (U+FF3A), and the pass runs before any width
normalization, so the ASCII spellings "ポリゴン2" and "ポリゴンZ" named by
the claim and by the source doc comment are left unsubstituted; their
canonical keys end in "2" and "z" rather than in ツ and ト, so they are
not ends-with consistent with "ポリゴンツー" and "ポリゴンゼット".  The
full-width spellings do get substituted. -/
theorem special_cases_fullwidth_only :
    normalizeSpecialCases "ポリゴン2".toList = "ポリゴン2".toList ∧
    normalizeSpecialCases "ポリゴンZ".toList = "ポリゴンZ".toList ∧
    normalizeSpecialCases "ポリゴン２".toList = "ポリゴンツー".toList ∧
    normalizeSpecialCases "ポリゴンＺ".toList = "ポリゴンゼット".toList ∧
    (normalize "ポリゴン2".toList).getLast? = some '2' ∧
    (normalize "ポリゴンツー".toList).getLast? = some 'ツ' ∧
    (normalize "ポリゴンZ".toList).getLast? = some 'z' ∧
    (normalize "ポリゴンゼット".toList).getLast? = some 'ト' := by
  decide

/-- C7: script insensitivity — a pure hiragana string and its direct
katakana transliteration (character-wise +0x60 shift on U+3041..U+3096)
normalize to the same canonical key. -/
theorem normalize_script_insensitive :
    ∀ l : List Char, (∀ c ∈ l, isHira c) →
      normalize l = normalize (l.map shiftChar) := by
  intro l h
  have hpre := fun c hc => hira_pre (h c hc)
  have e12 : normalizeEnding (normalizeSpecialCases l) = l :=
    first_two_passes_self (fun c hc => (hpre c hc).1) (fun c hc => (hpre c hc).2.1)
      (fun c hc => (hpre c hc).2.2.1) (fun c hc => (hpre c hc).2.2.2.1)
      (fun c hc => (hpre c hc).2.2.2.2.1)
  have hsh : ∀ c ∈ l.map shiftChar, ∃ a ∈ l, shiftChar a = c :=
    fun c hc => List.mem_map.mp hc
  have e12m : normalizeEnding (normalizeSpecialCases (l.map shiftChar)) =
      l.map shiftChar := by
    refine first_two_passes_self ?_ ?_ ?_ ?_ ?_
    · intro c hc
      obtain ⟨a, ha, rfl⟩ := hsh c hc
      exact (hira_shifted (h a ha)).1
    · intro c hc
      obtain ⟨a, ha, rfl⟩ := hsh c hc
      exact (hira_shifted (h a ha)).2.1
    · intro c hc
      obtain ⟨a, ha, rfl⟩ := hsh c hc
      exact (hira_shifted (h a ha)).2.2.1
    · intro c hc
      obtain ⟨a, ha, rfl⟩ := hsh c hc
      exact (hira_shifted (h a ha)).2.2.2.1
    · intro c hc
      obtain ⟨a, ha, rfl⟩ := hsh c hc
      exact (hira_shifted (h a ha)).2.2.2.2.1
  have hnfl : nfkc l = l :=
    nfkc_self_of_noMarks (fun c hc => (hpre c hc).2.2.1)
      (fun c hc => (hpre c hc).2.2.2.1)
  have hnflm : nfkc (l.map shiftChar) = l.map shiftChar := by
    apply nfkc_self_of_noMarks
    · intro c hc
      obtain ⟨a, ha, rfl⟩ := hsh c hc
      exact (hira_shifted (h a ha)).2.2.1
    · intro c hc
      obtain ⟨a, ha, rfl⟩ := hsh c hc
      exact (hira_shifted (h a ha)).2.2.2.1
  have e3 : normalizeKana l = l.map shiftChar := by
    rw [normalizeKana_eq, hnfl]
    exact List.map_congr_left (fun c hc => (hpre c hc).2.2.2.2.2)
  have e3m : normalizeKana (l.map shiftChar) = l.map shiftChar := by
    rw [normalizeKana_eq, hnflm]
    apply map_self
    intro c hc
    obtain ⟨a, ha, rfl⟩ := hsh c hc
    exact (hira_shifted (h a ha)).2.2.2.2.2
  rw [normalize_eq, normalize_eq, e12, e12m, e3, e3m]

/-- Witness for C7 at the concrete pair from the spec: "らいちゅう" vs
"ライチュウ". -/
theorem normalize_script_insensitive_witness :
    (∀ c ∈ "らいちゅう".toList, isHira c) ∧
      normalize "らいちゅう".toList = normalize "ライチュウ".toList := by
  refine ⟨by decide, ?_⟩
  have h := normalize_script_insensitive "らいちゅう".toList (by decide)
  rw [show "らいちゅう".toList.map shiftChar = "ライチュウ".toList from by decide] at h
  exact h

/-- C2 counterexample: the claim, read with both edge-character
constraints requiring the edge character to exist, fails on the code.  For
the predecessor "ー" (non-empty name, empty canonical key) the code takes
`slice(-1) = ""` and `startsWith("")` succeeds for every candidate, but
the claimed constraint (start with the last character of an empty key) is
unsatisfiable. -/
theorem valid_link_claim_counterexample :
    ¬ (getShiritoriValidity (some ⟨0, [], "ー".toList, false, false⟩) none "ア".toList
        = true ↔
      claimedValidity (some ⟨0, [], "ー".toList, false, false⟩) none "ア".toList
        = true) := by
  decide

/-- C2 amended: provided every present non-empty neighbor name has a
non-empty canonical key, the validator agrees with the claimed predicate;
and with both neighbors absent the validator always returns true. -/
theorem valid_link_spec_amended (prev next : Option Pokemon) (curr : List Char)
    (hp : (prev.map Pokemon.jpName).getD [] ≠ [] →
      normalize ((prev.map Pokemon.jpName).getD []) ≠ [])
    (hn : (next.map Pokemon.jpName).getD [] ≠ [] →
      normalize ((next.map Pokemon.jpName).getD []) ≠ []) :
    getShiritoriValidity prev next curr = claimedValidity prev next curr ∧
    getShiritoriValidity none none curr = true := by
  constructor
  · unfold getShiritoriValidity claimedValidity
    by_cases ht : jsTrim curr = []
    · rw [if_pos ht, if_pos ht]
    · rw [if_neg ht, if_neg ht]
      dsimp only
      by_cases hpn : (prev.map Pokemon.jpName).getD [] = []
      · rw [if_pos hpn, if_pos hpn]
        by_cases hnn : (next.map Pokemon.jpName).getD [] = []
        · rw [if_pos hnn, if_pos hnn]
        · rw [if_neg hnn, if_neg hnn]
          obtain ⟨c, hc⟩ := exists_head? (hn hnn)
          rw [hc]
      · rw [if_neg hpn, if_neg hpn]
        obtain ⟨c, hc⟩ := exists_getLast? (hp hpn)
        rw [hc]
        by_cases hnn : (next.map Pokemon.jpName).getD [] = []
        · rw [if_pos hnn, if_pos hnn]
        · rw [if_neg hnn, if_neg hnn]
          obtain ⟨d, hd⟩ := exists_head? (hn hnn)
          rw [hd]
  · unfold getShiritoriValidity
    by_cases ht : jsTrim curr = []
    · rw [if_pos ht]
    · rw [if_neg ht]
      dsimp only [Option.map_none', Option.getD_none]
      rw [if_pos rfl, if_pos rfl]
      rfl

/-- Witness for the amended C2 at a concrete input: predecessor ピカチュウ
(key ends in ウ) and candidate ウパー (key starts with ウ). -/
theorem valid_link_spec_amended_witness :
    normalize "ピカチュウ".toList ≠ [] ∧
    (getShiritoriValidity (some ⟨25, [], "ピカチュウ".toList, false, false⟩) none
        "ウパー".toList =
      claimedValidity (some ⟨25, [], "ピカチュウ".toList, false, false⟩) none
        "ウパー".toList ∧
     getShiritoriValidity none none "ウパー".toList = true) :=
  ⟨by decide,
   valid_link_spec_amended (some ⟨25, [], "ピカチュウ".toList, false, false⟩) none
     "ウパー".toList (fun _ => by decide) (fun h => absurd rfl h)⟩

/-- C10: when a present, non-empty neighbor name normalizes to the empty
key, the two sides behave asymmetrically.  Predecessor side: the code
compares against `slice(-1) = ""`, so such a predecessor imposes no
constraint at all (the validator behaves exactly as if the predecessor
were absent).  Successor side: `key[0]` is `undefined` and
`endsWith(undefined)` coerces to the text "undefined", so every candidate
that is non-empty after trimming and whose key does not end in the text
"undefined" is rejected. -/
theorem validator_empty_key_asymmetry :
    (∀ (p : Pokemon) (next : Option Pokemon) (curr : List Char),
        p.jpName ≠ [] → normalize p.jpName = [] →
        getShiritoriValidity (some p) next curr =
          getShiritoriValidity none next curr) ∧
    (∀ (prev : Option Pokemon) (p : Pokemon) (curr : List Char),
        p.jpName ≠ [] → normalize p.jpName = [] → jsTrim curr ≠ [] →
        List.isSuffixOf "undefined".toList (normalize curr) = false →
        getShiritoriValidity prev (some p) curr = false) := by
  constructor
  · intro p next curr hne hnorm
    unfold getShiritoriValidity
    by_cases ht : jsTrim curr = []
    · rw [if_pos ht, if_pos ht]
    · rw [if_neg ht, if_neg ht]
      dsimp only [Option.map_some', Option.getD_some, Option.map_none',
        Option.getD_none]
      rw [if_neg hne, hnorm, if_pos rfl]
      simp [List.isPrefixOf]
  · intro prev p curr hne hnorm ht hsuf
    unfold getShiritoriValidity
    rw [if_neg ht]
    dsimp only [Option.map_some', Option.getD_some]
    rw [if_neg hne, hnorm]
    simp only [List.head?_nil]
    rw [hsuf, Bool.and_false]

/-- Witness for C10 at a concrete input: successor "ー" (empty key)
rejects the candidate "ア". -/
theorem validator_empty_key_asymmetry_witness :
    ("ー".toList ≠ ([] : List Char) ∧ normalize "ー".toList = [] ∧
      jsTrim "ア".toList ≠ [] ∧
      List.isSuffixOf "undefined".toList (normalize "ア".toList) = false) ∧
    getShiritoriValidity none (some ⟨0, [], "ー".toList, false, false⟩) "ア".toList
      = false :=
  ⟨by decide,
   validator_empty_key_asymmetry.2 none ⟨0, [], "ー".toList, false, false⟩
     "ア".toList (by decide) (by decide) (by decide) (by decide)⟩

example : normalize "ポリゴン2".toList = "ホリゴン2".toList := by decide
example : normalize "ポリゴン２".toList = "ホリゴンツ".toList := by decide
example : normalize "ポリゴンツー".toList = "ホリゴンツ".toList := by decide
example : normalize "ガ".toList = "カ".toList := by decide
example : normalize "にゃん".toList = "ニヤン".toList := by decide
example : normalize "らいちゅう".toList = normalize "ライチュウ".toList := by decide
example : normalize "ポケモンー".toList = normalize "ポケモン".toList := by decide
example : normalize "ローラー".toList ≠ normalize "ロウラ".toList := by decide
example : normalize "ー".toList = [] := by decide
example :
    getShiritoriValidity (some ⟨0, [], "ー".toList, false, false⟩) none "ア".toList
      = true := by decide
example :
    getShiritoriValidity none (some ⟨0, [], "ー".toList, false, false⟩) "ア".toList
      = false := by decide
example :
    getShiritoriValidity none (some ⟨0, [], "ー".toList, false, false⟩)
      "undefined".toList = true := by decide

end PokeShiritori
